import Mathlib

/-!
Verification development for the Al-Waseem Tobacco price-list application.

The definitions below are a shallow embedding of the application's code:

* the `PUT /api/products/:id` route handler of the Express server
  (`updateProduct`: better-sqlite3 bind semantics — an absent body field is
  `undefined`, which `.run` refuses with a `TypeError`, while an explicit
  JSON `null` binds as SQL `NULL` — followed by the `COALESCE` UPDATE);
* the React client's `calculateSYP` price calculator, modelled over a type
  `JSNum` of JavaScript numbers (exact rationals plus `NaN` and the two
  infinities, so that the special-value propagation of `*`, `+`, `/`,
  `Math.round` and `isNaN` is captured; float rounding error is not modelled);
* the `groupedData` grouping/filtering pipeline, the `flattenedData`
  view-row builder, and the hidden `export-container` table body;
* `parseNumber`, the `visibleColumns` localStorage loading logic, and the
  `handleExportPDF` page-tiling computation.

JavaScript's `Array.prototype.sort` with a comparator (required to be stable
since ES2019) is modelled by Mathlib's stable `List.insertionSort`;
`String.prototype.localeCompare` is modelled as lexicographic comparison of
code points, and `toLowerCase`/`includes` are modelled character by character.
-/

/-! ### Character-level string operations -/

/-- Lexicographic `≤` on char lists by code point: the model of a
`localeCompare`-based comparator returning a non-positive number. -/
def charsLeB : List Char → List Char → Bool
  | [], _ => true
  | _ :: _, [] => false
  | c :: s, d :: t => if c < d then true else if d < c then false else charsLeB s t

/-- Propositional form of `charsLeB` on strings. -/
def StrLe (a b : String) : Prop := charsLeB a.toList b.toList = true

instance : DecidableRel StrLe := fun a b =>
  decidable_of_iff (charsLeB a.toList b.toList = true) Iff.rfl

/-- JS `String.prototype.includes` on char lists: some suffix of `hay`
starts with `needle`. -/
def charsContains : List Char → List Char → Bool
  | [], needle => needle.isEmpty
  | c :: t, needle => needle.isPrefixOf (c :: t) || charsContains t needle

/-- JS `hay.toLowerCase().includes(needle.toLowerCase())`. -/
def jsIncludes (hay needle : String) : Bool :=
  charsContains (hay.toList.map Char.toLower) (needle.toList.map Char.toLower)

/-! ### JavaScript numbers -/

/-- A JavaScript number, modelled as an exact rational or a special value. -/
inductive JSNum where
  | nan : JSNum
  | posInf : JSNum
  | negInf : JSNum
  | fin : ℚ → JSNum
deriving DecidableEq, Repr

/-- JS truthiness of a number: `NaN` and `0` are falsy. -/
def jsTruthy : JSNum → Bool
  | .nan => false
  | .posInf => true
  | .negInf => true
  | .fin q => decide (q ≠ 0)

/-- JS `a || b` on numbers. -/
def jsOr (a b : JSNum) : JSNum := if jsTruthy a then a else b

/-- JS `isNaN`. -/
def jsIsNaN : JSNum → Bool
  | .nan => true
  | _ => false

/-- JS addition with IEEE special-value propagation. -/
def jsAdd : JSNum → JSNum → JSNum
  | .nan, _ => .nan
  | _, .nan => .nan
  | .posInf, .negInf => .nan
  | .negInf, .posInf => .nan
  | .posInf, _ => .posInf
  | _, .posInf => .posInf
  | .negInf, _ => .negInf
  | _, .negInf => .negInf
  | .fin a, .fin b => .fin (a + b)

/-- JS multiplication with IEEE special-value propagation. -/
def jsMul : JSNum → JSNum → JSNum
  | .nan, _ => .nan
  | _, .nan => .nan
  | .posInf, .posInf => .posInf
  | .posInf, .negInf => .negInf
  | .negInf, .posInf => .negInf
  | .negInf, .negInf => .posInf
  | .posInf, .fin q => if q = 0 then .nan else if 0 < q then .posInf else .negInf
  | .negInf, .fin q => if q = 0 then .nan else if 0 < q then .negInf else .posInf
  | .fin q, .posInf => if q = 0 then .nan else if 0 < q then .posInf else .negInf
  | .fin q, .negInf => if q = 0 then .nan else if 0 < q then .negInf else .posInf
  | .fin a, .fin b => .fin (a * b)

/-- JS division with IEEE special-value propagation (signed zeros are not
distinguished). -/
def jsDiv : JSNum → JSNum → JSNum
  | .nan, _ => .nan
  | _, .nan => .nan
  | .posInf, .posInf => .nan
  | .posInf, .negInf => .nan
  | .negInf, .posInf => .nan
  | .negInf, .negInf => .nan
  | .posInf, .fin q => if q < 0 then .negInf else .posInf
  | .negInf, .fin q => if q < 0 then .posInf else .negInf
  | .fin _, .posInf => .fin 0
  | .fin _, .negInf => .fin 0
  | .fin a, .fin b =>
      if b = 0 then (if a = 0 then .nan else if 0 < a then .posInf else .negInf)
      else .fin (a / b)

/-- JS `Math.round`: half rounds toward positive infinity. -/
def jsRound : JSNum → JSNum
  | .nan => .nan
  | .posInf => .posInf
  | .negInf => .negInf
  | .fin q => .fin ((⌊q + 1/2⌋ : ℤ) : ℚ)

/-- The client's `calculateSYP`, reading the product's `cost_usd`,
`carton_usd` and `profit_syp` fields and the global rate (each already
coerced by `Number(...)`, hence a `JSNum`):

```
const rate = Number(globalRate) || 0;
const costUsd = Number(product.cost_usd) || Number(product.carton_usd) || 0;
const profit = Number(product.profit_syp) || 0;
const base = (costUsd * rate) + profit;
const result = Math.round(base / 500) * 500;
return isNaN(result) ? 0 : result;
``` -/
def calculateSYP (cost carton profit rateIn : JSNum) : JSNum :=
  let rate := jsOr rateIn (.fin 0)
  let costUsd := jsOr (jsOr cost carton) (.fin 0)
  let profitV := jsOr profit (.fin 0)
  let base := jsAdd (jsMul costUsd rate) profitV
  let result := jsMul (jsRound (jsDiv base (.fin 500))) (.fin 500)
  if jsIsNaN result then .fin 0 else result

/-- Modelled from the spec: the effective cost resolution in §4.1
("primary foreign-currency cost if nonzero, else legacy cost field, else 0"). -/
def effectiveCostSpec (cost carton : ℚ) : ℚ :=
  if cost ≠ 0 then cost else if carton ≠ 0 then carton else 0

/-- Modelled from the spec: "standard round half away from zero". -/
def roundHalfAwayFromZero (q : ℚ) : ℤ :=
  if 0 ≤ q then ⌊q + 1/2⌋ else -⌊-q + 1/2⌋

/-- Modelled from the spec: the §4.1 final-price contract, with the rounding
step read literally as round-half-away-from-zero on `base/500`. -/
def calculateSYPSpec (cost carton profit rate : ℚ) : ℚ :=
  500 * roundHalfAwayFromZero ((effectiveCostSpec cost carton * rate + profit) / 500)

/-! ### The `PUT /api/products/:id` handler -/

/-- A row of the `products` table; every column is nullable at the SQL level. -/
structure ProductRowDb where
  name : Option String
  cost_usd : Option ℚ
  profit_syp : Option ℚ
  wholesale_profit_syp : Option ℚ
  carton_usd : Option ℚ
  wholesale_carton_usd : Option ℚ
  category_id : Option ℤ
  is_hidden : Option ℤ
deriving DecidableEq, Repr

/-- The JSON body of a `PUT /api/products/:id` request.  Each field is
doubly optional: the outer `Option` distinguishes a field absent from the
body (the destructured variable is JavaScript `undefined`) from a present
one, and the inner `Option` distinguishes an explicit JSON `null` (which
binds as SQL `NULL`) from a concrete value. -/
structure UpdateRequest where
  name : Option (Option String)
  cost_usd : Option (Option ℚ)
  profit_syp : Option (Option ℚ)
  wholesale_profit_syp : Option (Option ℚ)
  carton_usd : Option (Option ℚ)
  wholesale_carton_usd : Option (Option ℚ)
  category_id : Option (Option ℤ)
  is_hidden : Option (Option ℤ)
deriving DecidableEq, Repr

/-- SQL `COALESCE` of two nullable values. -/
def sqlCoalesce {α : Type} (a b : Option α) : Option α :=
  match a with
  | some x => some x
  | none => b

/-- The `PUT /api/products/:id` handler.  `effectiveCartonUsd` is
`cost_usd !== undefined ? cost_usd : carton_usd`.  better-sqlite3 refuses
`undefined` bind parameters ("SQLite3 can only bind numbers, strings,
bigints, buffers, and null"; only `null` binds as SQL `NULL`), so if any of
the destructured body fields — and with them any of the positional bind
values passed to `.run(...)` — is absent, the statement throws a
`TypeError` before executing, the route responds 500 and the row is left
unchanged.  When every bind value is defined the UPDATE runs; note the
`carton_usd` column: its SQL is `carton_usd = COALESCE(?, ?)` and *both*
placeholders are bound to request values (`effectiveCartonUsd` and the
request's `carton_usd`), unlike every other column whose second `COALESCE`
argument is the column itself. -/
def updateProduct (req : UpdateRequest) (row : ProductRowDb) :
    Except String ProductRowDb :=
  let effectiveCartonUsd := if req.cost_usd.isSome then req.cost_usd else req.carton_usd
  if req.name.isNone || req.cost_usd.isNone || req.profit_syp.isNone ||
      req.wholesale_profit_syp.isNone || effectiveCartonUsd.isNone ||
      req.carton_usd.isNone || req.wholesale_carton_usd.isNone ||
      req.category_id.isNone || req.is_hidden.isNone then
    Except.error
      "TypeError: SQLite3 can only bind numbers, strings, bigints, buffers, and null"
  else
    Except.ok
      { name := sqlCoalesce req.name.join row.name
        cost_usd := sqlCoalesce req.cost_usd.join row.cost_usd
        profit_syp := sqlCoalesce req.profit_syp.join row.profit_syp
        wholesale_profit_syp := sqlCoalesce req.wholesale_profit_syp.join
          row.wholesale_profit_syp
        carton_usd := sqlCoalesce effectiveCartonUsd.join req.carton_usd.join
        wholesale_carton_usd := sqlCoalesce req.wholesale_carton_usd.join
          row.wholesale_carton_usd
        category_id := sqlCoalesce req.category_id.join row.category_id
        is_hidden := sqlCoalesce req.is_hidden.join row.is_hidden }

/-! ### Data model of the client -/

/-- A category record as served by `GET /api/categories`. -/
structure Category where
  id : ℤ
  name : String
  sort_order : ℤ
deriving DecidableEq, Repr

/-- A product record as served by `GET /api/products` (joined with its
category's name and sort order). -/
structure Product where
  id : ℤ
  category_id : ℤ
  category_name : String
  category_sort_order : ℤ
  name : String
  cost_usd : ℚ
  profit_syp : ℚ
  wholesale_profit_syp : ℚ
  carton_usd : ℚ
  wholesale_carton_usd : ℚ
  is_hidden : ℤ
deriving DecidableEq, Repr

/-- The category comparator `(a, b) => a.sort_order - b.sort_order` as the
relation "sorts at or before". -/
def catRel (a b : Category) : Prop := a.sort_order ≤ b.sort_order

instance : DecidableRel catRel := fun a b =>
  decidable_of_iff (a.sort_order ≤ b.sort_order) Iff.rfl

/-- The export table's product comparator
`(a, b) => a.name.localeCompare(b.name)` as a relation. -/
def nameRel (a b : Product) : Prop := StrLe a.name b.name

instance : DecidableRel nameRel := fun a b =>
  decidable_of_iff (StrLe a.name b.name) Iff.rfl

/-- The pipeline's product comparator: category sort order first
(`(a.category_sort_order || 0) - (b.category_sort_order || 0)`, where
`x || 0 = x` on integers), then `localeCompare` on names. -/
def prodRel (a b : Product) : Prop :=
  a.category_sort_order < b.category_sort_order ∨
    (a.category_sort_order = b.category_sort_order ∧ StrLe a.name b.name)

instance : DecidableRel prodRel := fun a b =>
  decidable_of_iff (a.category_sort_order < b.category_sort_order ∨
    (a.category_sort_order = b.category_sort_order ∧ StrLe a.name b.name)) Iff.rfl

/-! ### The grouping/filtering pipeline (`groupedData`) -/

/-- The filter of `groupedData`:
`(nameMatch || catMatch) && categoryFilterMatch && visibilityMatch`. -/
def passesFilter (searchQuery selectedCategory : String) (showHidden : Bool)
    (p : Product) : Bool :=
  let nameMatch := jsIncludes p.name searchQuery
  let catMatch := jsIncludes p.category_name searchQuery
  let categoryFilterMatch := (selectedCategory == "all") || (p.category_name == selectedCategory)
  let visibilityMatch := showHidden || (p.is_hidden == 0)
  (nameMatch || catMatch) && categoryFilterMatch && visibilityMatch

/-- The label `'غير مصنف'` used for products without a truthy category name. -/
def uncategorizedLabel : String := "غير مصنف"

/-- `p.category_name || 'غير مصنف'` (the empty string is the only falsy string). -/
def prodKey (p : Product) : String :=
  if p.category_name = "" then uncategorizedLabel else p.category_name

/-- The `groups` object built by `filtered.forEach(p => groups[cat].push(p))`,
as the map from a key to the bucket accumulated for it. -/
def buildGroups (filtered : List Product) : String → List Product :=
  filtered.foldl (fun g p => fun k => if k = prodKey p then g k ++ [p] else g k) (fun _ => [])

/-- `categories.sort((a, b) => a.sort_order - b.sort_order)`. -/
def sortedCategories (categories : List Category) : List Category :=
  List.insertionSort catRel categories

/-- `orderedCategories`: names of sorted categories having a nonempty bucket,
with `'غير مصنف'` appended when its bucket is nonempty and it is not already
present. -/
def orderedCategoryNames (categories : List Category) (groups : String → List Product) :
    List String :=
  let base := ((sortedCategories categories).map Category.name).filter
    (fun n => !(groups n).isEmpty)
  if !(groups uncategorizedLabel).isEmpty && !(base.contains uncategorizedLabel) then
    base ++ [uncategorizedLabel]
  else base

/-- The `groupedData` memo: ordered category names and the flattened ordered
product list. -/
def groupedData (products : List Product) (categories : List Category)
    (searchQuery selectedCategory : String) (showHidden : Bool) :
    List String × List Product :=
  let sorted := List.insertionSort prodRel products
  let filtered := sorted.filter (passesFilter searchQuery selectedCategory showHidden)
  let groups := buildGroups filtered
  let ordered := orderedCategoryNames categories groups
  (ordered, ordered.flatMap groups)

/-- A derived view row: a category header or a product row. -/
inductive ViewRow where
  | header (name : String) : ViewRow
  | productRow (p : Product) : ViewRow
deriving DecidableEq, Repr

/-- `flattenedData`: walk the ordered products, emitting a header whenever
the category key differs from `lastCategory` (initially `''`). -/
def flattenRows : List Product → String → List ViewRow
  | [], _ => []
  | p :: ps, lastCategory =>
      if prodKey p ≠ lastCategory then
        .header (prodKey p) :: .productRow p :: flattenRows ps (prodKey p)
      else
        .productRow p :: flattenRows ps lastCategory

/-- The live table's flattened view-row sequence. -/
def flattenedData (products : List Product) (categories : List Category)
    (searchQuery selectedCategory : String) (showHidden : Bool) : List ViewRow :=
  flattenRows (groupedData products categories searchQuery selectedCategory showHidden).2 ""

/-! ### The export table body (`export-container`) -/

/-- The rows of the hidden export table: for each category in sort order, the
products with that `category_id` passing the hidden filter, sorted by name,
preceded by a header row; empty categories emit nothing.  The search text and
the selected category play no part. -/
def exportRows (products : List Product) (categories : List Category)
    (showHidden : Bool) : List ViewRow :=
  (sortedCategories categories).flatMap (fun cat =>
    let catProducts := products.filter
      (fun p => (p.category_id == cat.id) && (showHidden || (p.is_hidden == 0)))
    if catProducts.isEmpty then []
    else .header cat.name :: (List.insertionSort nameRel catProducts).map ViewRow.productRow)

/-- The product rows of a view-row sequence, in order. -/
def productRowsOf (rows : List ViewRow) : List Product :=
  rows.filterMap (fun r => match r with | .productRow p => some p | .header _ => none)

/-- The header names of a view-row sequence, in order. -/
def headerNamesOf (rows : List ViewRow) : List String :=
  rows.filterMap (fun r => match r with | .header n => some n | .productRow _ => none)

/-! ### Column registry -/

/-- `DEFAULT_VISIBLE`. -/
def DEFAULT_VISIBLE : List String :=
  ["name", "syp_final", "cost_usd", "profit_syp", "wholesale_carton_usd", "lsg"]

/-- The `visibleColumns` `useState` initial-value computation, applied to the parsed
persisted value (`none` models an absent or unparseable persisted value). -/
def loadVisibleColumns : Option (List String) → List String
  | none => DEFAULT_VISIBLE
  | some parsed =>
      if parsed.length = 0 || !(parsed.contains "name") then DEFAULT_VISIBLE else parsed

/-! ### `parseNumber` -/

/-- Digits of a char list read as a natural number (most significant first). -/
def digitsToNat (l : List Char) : ℕ :=
  l.foldl (fun n c => 10 * n + (c.toNat - '0'.toNat)) 0

/-- JS `parseFloat` restricted to strings over digits and `'.'` (all
`parseNumber` ever passes it): longest numeric head, `none` for `NaN`. -/
def jsParseFloat (s : List Char) : Option ℚ :=
  let intPart := s.takeWhile Char.isDigit
  let rest := s.dropWhile Char.isDigit
  let fracPart := match rest with
    | '.' :: t => t.takeWhile Char.isDigit
    | _ => []
  if intPart.isEmpty && fracPart.isEmpty then none
  else some ((digitsToNat intPart : ℚ) + (digitsToNat fracPart : ℚ) / (10 : ℚ) ^ fracPart.length)

/-- `val.toString().replace(/,/g, '.').replace(/[^0-9.]/g, '')`. -/
def cleanedChars (s : String) : List Char :=
  (s.toList.map (fun c => if c = ',' then '.' else c)).filter (fun c => c.isDigit || c = '.')

/-- The client's `parseNumber` on string input. -/
def parseNumber (s : String) : ℚ :=
  if s = "" then 0
  else
    match jsParseFloat (cleanedChars s) with
    | none => 0
    | some q => q

/-! ### PDF export tiling (`handleExportPDF`) -/

/-- The page width `pdfWidth = 78` (mm) hard-coded in `handleExportPDF`. -/
def pdfWidthMm : ℚ := 78

/-- The page height `pdfPageHeight = 311` (mm) hard-coded in `handleExportPDF`. -/
def pdfPageHeightMm : ℚ := 311

/-- One generated PDF page: the `addImage` call's y-offset and the scaled
image width and height placed on it. -/
structure PdfPage where
  position : ℚ
  imageWidth : ℚ
  imageHeight : ℚ
deriving DecidableEq, Repr

/-- The page-generation loop of `handleExportPDF`, with the page geometry
(`pdfWidth`, `pdfPageHeight`, in the code the constants `78` and `311`) as
parameters:

```
const imgPageHeightInPixels = (pdfPageHeight * imgWidth) / pdfWidth;
const totalPages = Math.ceil(imgHeight / imgPageHeightInPixels);
const pdfImgHeight = (imgHeight * pdfWidth) / imgWidth;
for (let i = 0; i < totalPages; i++)
  pdf.addImage(imgData, 'JPEG', 0, -(pdfPageHeight * i), pdfWidth, pdfImgHeight, ...);
``` -/
def handleExportPDF (imgWidth imgHeight pdfWidth pdfPageHeight : ℚ) : List PdfPage :=
  let imgPageHeightInPixels := (pdfPageHeight * imgWidth) / pdfWidth
  let totalPages : ℤ := ⌈imgHeight / imgPageHeightInPixels⌉
  let pdfImgHeight := (imgHeight * pdfWidth) / imgWidth
  (List.range totalPages.toNat).map
    (fun (i : ℕ) => ⟨-(pdfPageHeight * (i : ℚ)), pdfWidth, pdfImgHeight⟩)

/-- The source-image pixel height corresponding to one physical page. -/
def pageHeightPx (imgWidth pdfWidth pdfPageHeight : ℚ) : ℚ :=
  (pdfPageHeight * imgWidth) / pdfWidth

/-- Lower edge (inclusive), in source-image pixels, of the window of the
image visible on 0-indexed page `i`: the image is drawn at physical offset
`-(pdfPageHeight * i)` scaled by `pdfWidth / imgWidth`, so pixel `y` is
visible on page `i` iff `i * pageHeightPx ≤ y < (i+1) * pageHeightPx`. -/
def pageWindowLower (imgWidth pdfWidth pdfPageHeight : ℚ) (i : ℕ) : ℚ :=
  (i : ℚ) * pageHeightPx imgWidth pdfWidth pdfPageHeight

/-- Upper edge (exclusive) of the window of the image visible on page `i`. -/
def pageWindowUpper (imgWidth pdfWidth pdfPageHeight : ℚ) (i : ℕ) : ℚ :=
  ((i : ℚ) + 1) * pageHeightPx imgWidth pdfWidth pdfPageHeight

/-! ### Order properties of the comparators -/

theorem charsLeB_trans (a b c : List Char) (hab : charsLeB a b = true)
    (hbc : charsLeB b c = true) : charsLeB a c = true := by
  induction a generalizing b c with
  | nil => cases c <;> simp [charsLeB]
  | cons x xs ih =>
    cases b with
    | nil => simp [charsLeB] at hab
    | cons y ys =>
      cases c with
      | nil => simp [charsLeB] at hbc
      | cons z zs =>
        simp only [charsLeB] at hab hbc ⊢
        by_cases hxy : x < y
        · by_cases hyz : y < z
          · simp [lt_trans hxy hyz]
          · by_cases hzy : z < y
            · simp [hyz, hzy] at hbc
            · have hyzeq : y = z := le_antisymm (not_lt.mp hzy) (not_lt.mp hyz)
              subst hyzeq
              simp [hxy]
        · by_cases hyx : y < x
          · simp [hxy, hyx] at hab
          · have hxyeq : x = y := le_antisymm (not_lt.mp hyx) (not_lt.mp hxy)
            subst hxyeq
            simp only [lt_irrefl, if_false] at hab
            by_cases hxz : x < z
            · simp [hxz]
            · by_cases hzx : z < x
              · simp [hxz, hzx] at hbc
              · have hxzeq : x = z := le_antisymm (not_lt.mp hzx) (not_lt.mp hxz)
                subst hxzeq
                simp only [lt_irrefl, if_false] at hbc ⊢
                exact ih ys zs hab hbc

theorem charsLeB_total (a b : List Char) : charsLeB a b = true ∨ charsLeB b a = true := by
  induction a generalizing b with
  | nil => left; simp [charsLeB]
  | cons x xs ih =>
    cases b with
    | nil => right; simp [charsLeB]
    | cons y ys =>
      simp only [charsLeB]
      by_cases hxy : x < y
      · left; simp [hxy]
      · by_cases hyx : y < x
        · right; simp [hyx, asymm hyx]
        · have hxyeq : x = y := le_antisymm (not_lt.mp hyx) (not_lt.mp hxy)
          subst hxyeq
          simpa [lt_irrefl] using ih ys

instance : IsTrans Product nameRel :=
  ⟨fun _ _ _ hab hbc => charsLeB_trans _ _ _ hab hbc⟩

instance : IsTotal Product nameRel :=
  ⟨fun a b => charsLeB_total a.name.toList b.name.toList⟩

instance : IsTrans Category catRel :=
  ⟨fun _ _ _ hab hbc => le_trans hab hbc⟩

instance : IsTotal Category catRel :=
  ⟨fun a b => le_total a.sort_order b.sort_order⟩

instance : IsTrans Product prodRel := by
  constructor
  intro a b c hab hbc
  rcases hab with hab | ⟨hab, hab'⟩
  · rcases hbc with hbc | ⟨hbc, _⟩
    · exact Or.inl (lt_trans hab hbc)
    · exact Or.inl (hbc ▸ hab)
  · rcases hbc with hbc | ⟨hbc, hbc'⟩
    · exact Or.inl (hab ▸ hbc)
    · exact Or.inr ⟨hab.trans hbc, charsLeB_trans _ _ _ hab' hbc'⟩

instance : IsTotal Product prodRel := by
  constructor
  intro a b
  rcases lt_trichotomy a.category_sort_order b.category_sort_order with h | h | h
  · exact Or.inl (Or.inl h)
  · rcases charsLeB_total a.name.toList b.name.toList with h' | h'
    · exact Or.inl (Or.inr ⟨h, h'⟩)
    · exact Or.inr (Or.inr ⟨h.symm, h'⟩)
  · exact Or.inr (Or.inl h)

/-! ### Stability lemmas for `insertionSort` -/

theorem orderedInsert_of_forall_rel {α : Type} (r : α → α → Prop) [DecidableRel r]
    {x : α} {M : List α} (h : ∀ z ∈ M, r x z) : M.orderedInsert r x = x :: M := by
  cases M with
  | nil => rfl
  | cons z zs => simp [List.orderedInsert, if_pos (h z (List.mem_cons_self z zs))]

theorem filter_orderedInsert {α : Type} (r : α → α → Prop) [DecidableRel r] [IsTrans α r]
    (q : α → Bool) (x : α) :
    ∀ (L : List α), L.Sorted r →
      (L.orderedInsert r x).filter q =
        if q x then (L.filter q).orderedInsert r x else L.filter q := by
  intro L
  induction L with
  | nil =>
    intro _
    by_cases hqx : q x <;> simp [List.orderedInsert, hqx]
  | cons y ys ih =>
    intro hL
    by_cases hr : r x y
    · simp only [List.orderedInsert, if_pos hr]
      by_cases hqx : q x
      · have hall : ∀ z ∈ (y :: ys).filter q, r x z := by
          intro z hz
          rcases List.mem_filter.mp hz with ⟨hz, _⟩
          rcases List.mem_cons.mp hz with rfl | hz
          · exact hr
          · exact Trans.trans hr (List.rel_of_sorted_cons hL z hz)
        rw [if_pos hqx, orderedInsert_of_forall_rel r hall]
        simp [List.filter_cons, hqx]
      · rw [if_neg hqx]
        simp [List.filter_cons, hqx]
    · simp only [List.orderedInsert, if_neg hr]
      have ihys := ih hL.of_cons
      by_cases hqy : q y
      · simp only [List.filter_cons, hqy, if_true, ihys]
        by_cases hqx : q x
        · simp only [hqx, if_true]
          simp only [List.orderedInsert, if_neg hr]
        · simp [hqx]
      · simp only [List.filter_cons, hqy, if_false, ihys]
        simp

theorem filter_insertionSort {α : Type} (r : α → α → Prop) [DecidableRel r]
    [IsTrans α r] [IsTotal α r] (q : α → Bool) (l : List α) :
    (l.insertionSort r).filter q = (l.filter q).insertionSort r := by
  induction l with
  | nil => rfl
  | cons x xs ih =>
    simp only [List.insertionSort]
    rw [filter_orderedInsert r q x _ (List.sorted_insertionSort r xs), ih]
    by_cases hqx : q x <;> simp [List.filter_cons, hqx, List.insertionSort]

theorem orderedInsert_congr {α : Type} {r r' : α → α → Prop}
    [DecidableRel r] [DecidableRel r'] {x : α} :
    ∀ {M : List α}, (∀ z ∈ M, (r x z ↔ r' x z)) →
      M.orderedInsert r x = M.orderedInsert r' x := by
  intro M
  induction M with
  | nil => intro _; rfl
  | cons z zs ih =>
    intro h
    simp only [List.orderedInsert]
    by_cases hr : r x z
    · rw [if_pos hr, if_pos ((h z (List.mem_cons_self z zs)).mp hr)]
    · rw [if_neg hr, if_neg (fun h' => hr ((h z (List.mem_cons_self z zs)).mpr h')),
        ih (fun w hw => h w (List.mem_cons_of_mem z hw))]

theorem insertionSort_congr {α : Type} {r r' : α → α → Prop}
    [DecidableRel r] [DecidableRel r'] :
    ∀ {l : List α}, (∀ a ∈ l, ∀ b ∈ l, (r a b ↔ r' a b)) →
      l.insertionSort r = l.insertionSort r' := by
  intro l
  induction l with
  | nil => intro _; rfl
  | cons x xs ih =>
    intro h
    simp only [List.insertionSort]
    rw [ih (fun a ha b hb =>
      h a (List.mem_cons_of_mem x ha) b (List.mem_cons_of_mem x hb))]
    exact orderedInsert_congr (fun z hz =>
      h x (List.mem_cons_self x xs) z
        (List.mem_cons_of_mem x ((List.mem_insertionSort r').mp hz)))

/-! ### Bridging lemmas for the pipeline -/

theorem buildGroups_foldl (l : List Product) (g : String → List Product) (k : String) :
    (l.foldl (fun g p => fun k => if k = prodKey p then g k ++ [p] else g k) g) k
      = g k ++ l.filter (fun p => prodKey p == k) := by
  induction l generalizing g with
  | nil => simp
  | cons p t ih =>
    simp only [List.foldl_cons, List.filter_cons]
    rw [ih]
    by_cases hk : k = prodKey p
    · simp [hk, List.append_assoc]
    · have hpk : (prodKey p == k) = false := by
        simp only [beq_eq_false_iff_ne, ne_eq]
        exact fun h => hk h.symm
      simp [if_neg hk, hpk]

theorem buildGroups_apply (filtered : List Product) (k : String) :
    buildGroups filtered k = filtered.filter (fun p => prodKey p == k) := by
  simpa [buildGroups] using buildGroups_foldl filtered (fun _ => []) k

theorem charsContains_nil (hay : List Char) : charsContains hay [] = true := by
  cases hay <;> simp [charsContains, List.isPrefixOf]

theorem jsIncludes_empty (hay : String) : jsIncludes hay "" = true := by
  have h : ("" : String).toList = [] := rfl
  simp only [jsIncludes, h, List.map_nil]
  exact charsContains_nil _

theorem passesFilter_empty_search (sh : Bool) (p : Product) :
    passesFilter "" "all" sh p = (sh || (p.is_hidden == 0)) := by
  simp [passesFilter, jsIncludes_empty]

theorem passesFilter_visibility {q selCat : String} {sh : Bool} {p : Product}
    (h : passesFilter q selCat sh p = true) : (sh || (p.is_hidden == 0)) = true := by
  simp only [passesFilter, Bool.and_eq_true] at h
  exact h.2

theorem flatMap_nil_fun {α β : Type} (ns : List α) :
    ns.flatMap (fun _ => ([] : List β)) = [] := by
  induction ns with
  | nil => rfl
  | cons n t ih => simp [List.flatMap_cons, ih]

theorem flatMap_filter_isEmpty {α β : Type} (L : List α) (g : α → List β) :
    (L.filter (fun a => !(g a).isEmpty)).flatMap g = L.flatMap g := by
  induction L with
  | nil => rfl
  | cons x xs ih =>
    simp only [List.filter_cons]
    cases hx : (g x).isEmpty
    · simp only [Bool.not_false, if_true, List.flatMap_cons, ih]
    · have hx' : g x = [] := List.isEmpty_iff.mp hx
      simp [List.flatMap_cons, ih, hx']

theorem mem_bucket {l : List Product} {k : String} {p : Product}
    (h : p ∈ l.filter (fun q => prodKey q == k)) : p ∈ l ∧ prodKey p = k := by
  have := List.mem_filter.mp h
  exact ⟨this.1, by simpa [beq_iff_eq] using this.2⟩

/-! ### Structure of `flattenRows` -/

theorem flattenRows_same_key :
    ∀ (b tail : List Product) (n : String), (∀ p ∈ b, prodKey p = n) →
      flattenRows (b ++ tail) n = b.map ViewRow.productRow ++ flattenRows tail n := by
  intro b
  induction b with
  | nil => simp
  | cons p bs ih =>
    intro tail n hb
    have hp : prodKey p = n := hb p (List.mem_cons_self p bs)
    simp only [List.cons_append, flattenRows, List.append_eq]
    rw [if_neg (fun hne => hne hp), ih tail n (fun q hq => hb q (List.mem_cons_of_mem p hq))]
    simp

theorem flattenRows_block (b tail : List Product) (n last : String)
    (hbne : b ≠ []) (hb : ∀ p ∈ b, prodKey p = n) (hlast : n ≠ last) :
    flattenRows (b ++ tail) last =
      .header n :: (b.map ViewRow.productRow ++ flattenRows tail n) := by
  cases b with
  | nil => exact absurd rfl hbne
  | cons p bs =>
    have hp : prodKey p = n := hb p (List.mem_cons_self p bs)
    simp only [List.cons_append, flattenRows, List.append_eq]
    rw [if_pos (fun h => hlast (hp ▸ h)), hp,
      flattenRows_same_key bs tail n (fun q hq => hb q (List.mem_cons_of_mem p hq))]
    simp

theorem flattenRows_flatMap (G : String → List Product) :
    ∀ (ns : List String) (last : String),
      (∀ n ∈ ns, G n ≠ [] ∧ ∀ p ∈ G n, prodKey p = n) → ns.Nodup → last ∉ ns →
      flattenRows (ns.flatMap G) last =
        ns.flatMap (fun n => .header n :: (G n).map ViewRow.productRow) := by
  intro ns
  induction ns with
  | nil => intro last _ _ _; rfl
  | cons n rest ih =>
    intro last h hnd hlast
    have hn := h n (List.mem_cons_self n rest)
    have hlastn : n ≠ last := fun e => hlast (e ▸ List.mem_cons_self n rest)
    simp only [List.flatMap_cons]
    rw [flattenRows_block (G n) (rest.flatMap G) n last hn.1 hn.2 hlastn,
      ih n (fun m hm => h m (List.mem_cons_of_mem n hm)) (List.nodup_cons.mp hnd).2
        (List.nodup_cons.mp hnd).1]
    simp

theorem productRow_mem_flattenRows {p : Product} :
    ∀ (l : List Product) (last : String),
      ViewRow.productRow p ∈ flattenRows l last → p ∈ l := by
  intro l
  induction l with
  | nil => intro last h; simp [flattenRows] at h
  | cons x xs ih =>
    intro last h
    by_cases hx : prodKey x ≠ last
    · simp only [flattenRows, if_pos hx, List.mem_cons] at h
      rcases h with h | h | h
      · exact absurd h (by simp)
      · obtain rfl : p = x := by injection h
        exact List.mem_cons_self p xs
      · exact List.mem_cons_of_mem x (ih _ h)
    · simp only [flattenRows, if_neg hx, List.mem_cons] at h
      rcases h with h | h
      · obtain rfl : p = x := by injection h
        exact List.mem_cons_self p xs
      · exact List.mem_cons_of_mem x (ih _ h)

/-! ### Canonical form of the pipeline under an empty filter state -/

theorem flatMap_ext {α β : Type} {l : List α} {f g : α → List β}
    (h : ∀ a ∈ l, f a = g a) : l.flatMap f = l.flatMap g := by
  induction l with
  | nil => rfl
  | cons x xs ih =>
    simp only [List.flatMap_cons, h x (List.mem_cons_self x xs)]
    rw [ih (fun a ha => h a (List.mem_cons_of_mem x ha))]

theorem groupedData_def (products : List Product) (cats : List Category)
    (q selCat : String) (sh : Bool) :
    groupedData products cats q selCat sh =
      (orderedCategoryNames cats
        (buildGroups ((List.insertionSort prodRel products).filter (passesFilter q selCat sh))),
       (orderedCategoryNames cats
        (buildGroups ((List.insertionSort prodRel products).filter (passesFilter q selCat sh)))).flatMap
        (buildGroups ((List.insertionSort prodRel products).filter (passesFilter q selCat sh)))) :=
  rfl

theorem filtered_empty_search (products : List Product) (sh : Bool) :
    (List.insertionSort prodRel products).filter (passesFilter "" "all" sh)
      = (products.filter (fun p => sh || (p.is_hidden == 0))).insertionSort prodRel := by
  rw [List.filter_congr (fun p _ => passesFilter_empty_search sh p)]
  exact filter_insertionSort prodRel _ products

theorem bucket_of_category (products : List Product) (cats : List Category) (sh : Bool)
    (hnames : (cats.map Category.name).Nodup)
    (hids : (cats.map Category.id).Nodup)
    (hne : ∀ c ∈ cats, c.name ≠ "")
    (hcons : ∀ p ∈ products, ∃ c ∈ cats, p.category_id = c.id ∧
      p.category_name = c.name ∧ p.category_sort_order = c.sort_order)
    (c : Category) (hc : c ∈ cats) :
    ((products.filter (fun p => sh || (p.is_hidden == 0))).insertionSort prodRel).filter
        (fun p => prodKey p == c.name)
      = List.insertionSort nameRel (products.filter
          (fun p => (p.category_id == c.id) && (sh || (p.is_hidden == 0)))) := by
  rw [filter_insertionSort prodRel _ _, List.filter_filter]
  have hpred : ∀ p ∈ products,
      ((prodKey p == c.name) && (sh || (p.is_hidden == 0)))
        = ((p.category_id == c.id) && (sh || (p.is_hidden == 0))) := by
    intro p hp
    obtain ⟨c', hc', hid, hname, _⟩ := hcons p hp
    have hkey : prodKey p = p.category_name := if_neg (hname ▸ hne c' hc')
    have hiff : prodKey p = c.name ↔ p.category_id = c.id := by
      constructor
      · intro h
        have hcc : c' = c := List.inj_on_of_nodup_map hnames hc' hc
          (by rw [← hname, ← hkey, h])
        rw [hid, hcc]
      · intro h
        have hcc : c' = c := List.inj_on_of_nodup_map hids hc' hc
          (by rw [← hid, h])
        rw [hkey, hname, hcc]
    have hbeq : (prodKey p == c.name) = (p.category_id == c.id) := by
      by_cases h : prodKey p = c.name
      · rw [show (prodKey p == c.name) = true from beq_iff_eq.mpr h,
          show (p.category_id == c.id) = true from beq_iff_eq.mpr (hiff.mp h)]
      · rw [show (prodKey p == c.name) = false from beq_eq_false_iff_ne.mpr h,
          show (p.category_id == c.id) = false from
            beq_eq_false_iff_ne.mpr (fun h' => h (hiff.mpr h'))]
    rw [hbeq]
  rw [List.filter_congr hpred]
  apply insertionSort_congr
  intro a ha b hb
  have sort_order_of_mem : ∀ x : Product,
      x ∈ products.filter (fun p => (p.category_id == c.id) && (sh || (p.is_hidden == 0))) →
      x.category_sort_order = c.sort_order := by
    intro x hx
    obtain ⟨hx', hxpred⟩ := List.mem_filter.mp hx
    have hxid : x.category_id = c.id := by
      simp only [Bool.and_eq_true, beq_iff_eq] at hxpred
      exact hxpred.1
    obtain ⟨cx, hcx, hxidc, _, hxso⟩ := hcons x hx'
    have hcc : cx = c := List.inj_on_of_nodup_map hids hcx hc (by rw [← hxidc, hxid])
    rw [hxso, hcc]
  have haso := sort_order_of_mem a ha
  have hbso := sort_order_of_mem b hb
  simp only [prodRel, nameRel]
  constructor
  · intro h
    rcases h with h | ⟨_, h⟩
    · rw [haso, hbso] at h
      exact absurd h (lt_irrefl _)
    · exact h
  · intro h
    exact Or.inr ⟨by rw [haso, hbso], h⟩

theorem productRowsOf_map (l : List Product) :
    productRowsOf (l.map ViewRow.productRow) = l := by
  induction l with
  | nil => rfl
  | cons p t ih => simp [productRowsOf, List.filterMap_cons] at ih ⊢; exact ih

theorem productRowsOf_append (a b : List ViewRow) :
    productRowsOf (a ++ b) = productRowsOf a ++ productRowsOf b :=
  List.filterMap_append a b _

theorem headerNamesOf_block (n : String) (l : List Product) :
    headerNamesOf (ViewRow.header n :: l.map ViewRow.productRow) = [n] := by
  simp only [headerNamesOf, List.filterMap_cons]
  induction l with
  | nil => rfl
  | cons p t _ => simp [List.filterMap_cons]

theorem productRowsOf_block (n : String) (l : List Product) :
    productRowsOf (ViewRow.header n :: l.map ViewRow.productRow) = l := by
  simp only [productRowsOf, List.filterMap_cons]
  exact productRowsOf_map l

theorem groupedData_canonical
    (products : List Product) (cats : List Category) (sh : Bool)
    (hnames : (cats.map Category.name).Nodup)
    (hids : (cats.map Category.id).Nodup)
    (hne : ∀ c ∈ cats, c.name ≠ "")
    (hcons : ∀ p ∈ products, ∃ c ∈ cats, p.category_id = c.id ∧
      p.category_name = c.name ∧ p.category_sort_order = c.sort_order) :
    (groupedData products cats "" "all" sh).2 =
      (sortedCategories cats).flatMap (fun c =>
        List.insertionSort nameRel (products.filter
          (fun p => (p.category_id == c.id) && (sh || (p.is_hidden == 0))))) := by
  rw [groupedData_def]
  set F := (List.insertionSort prodRel products).filter (passesFilter "" "all" sh) with hF
  have hg : ∀ k, buildGroups F k = F.filter (fun p => prodKey p == k) := buildGroups_apply F
  have hkeymem : ∀ p ∈ F, p ∈ products ∧ prodKey p = p.category_name ∧
      p.category_name ∈ (sortedCategories cats).map Category.name := by
    intro p hp
    have hp1 : p ∈ List.insertionSort prodRel products := (List.mem_filter.mp hp).1
    have hp2 : p ∈ products := (List.mem_insertionSort prodRel).mp hp1
    obtain ⟨c', hc', _, hname, _⟩ := hcons p hp2
    refine ⟨hp2, if_neg (fun h => hne c' hc' (hname ▸ h)), ?_⟩
    rw [hname]
    exact List.mem_map.mpr ⟨c', (List.mem_insertionSort catRel).mpr hc', rfl⟩
  have hbranch :
      orderedCategoryNames cats (buildGroups F)
        = ((sortedCategories cats).map Category.name).filter
            (fun n => !((buildGroups F) n).isEmpty) := by
    have hcond : (!(buildGroups F uncategorizedLabel).isEmpty &&
        !((((sortedCategories cats).map Category.name).filter
            (fun n => !((buildGroups F) n).isEmpty)).contains uncategorizedLabel)) = false := by
      cases hu : (buildGroups F uncategorizedLabel).isEmpty
      · have hne' : buildGroups F uncategorizedLabel ≠ [] := by
          intro h; rw [h] at hu; simp at hu
        obtain ⟨p, hp⟩ := List.exists_mem_of_ne_nil _ hne'
        rw [hg] at hp
        obtain ⟨hpF, hkey⟩ := mem_bucket hp
        obtain ⟨_, hkeyname, hnamemem⟩ := hkeymem p hpF
        have humem : uncategorizedLabel ∈
            ((sortedCategories cats).map Category.name).filter
              (fun n => !((buildGroups F) n).isEmpty) := by
          apply List.mem_filter.mpr
          refine ⟨by rw [← hkey, hkeyname]; exact hnamemem, ?_⟩
          rw [hg]
          have hne2 : F.filter (fun q => prodKey q == uncategorizedLabel) ≠ [] :=
            List.ne_nil_of_mem (List.mem_filter.mpr ⟨hpF, beq_iff_eq.mpr hkey⟩)
          simp [hne2]
        have hcont : ((((sortedCategories cats).map Category.name).filter
            (fun n => !((buildGroups F) n).isEmpty)).contains uncategorizedLabel) = true :=
          List.elem_iff.mpr humem
        rw [hcont]
        simp
      · simp [hu]
    simp only [orderedCategoryNames, hcond, Bool.false_eq_true, if_false]
  rw [hbranch, flatMap_filter_isEmpty, List.flatMap_map]
  apply flatMap_ext
  intro c hc
  have hc' : c ∈ cats := (List.mem_insertionSort catRel).mp (by simpa [sortedCategories] using hc)
  rw [hg, hF, filtered_empty_search]
  exact bucket_of_category products cats sh hnames hids hne hcons c hc'

theorem exportRows_productRows (products : List Product) (cats : List Category) (sh : Bool) :
    productRowsOf (exportRows products cats sh) =
      (sortedCategories cats).flatMap (fun c =>
        List.insertionSort nameRel (products.filter
          (fun p => (p.category_id == c.id) && (sh || (p.is_hidden == 0))))) := by
  unfold exportRows productRowsOf
  rw [List.filterMap_flatMap]
  apply flatMap_ext
  intro c _
  cases hemp : (products.filter
      (fun p => (p.category_id == c.id) && (sh || (p.is_hidden == 0)))).isEmpty
  · simp only [hemp, Bool.false_eq_true, if_false]
    exact productRowsOf_block c.name _
  · have h0 : products.filter
        (fun p => (p.category_id == c.id) && (sh || (p.is_hidden == 0))) = [] :=
      List.isEmpty_iff.mp hemp
    simp [hemp, h0, List.insertionSort]

/-! ### Counting products across buckets -/

theorem bucket_length_cons (p : Product) (t : List Product) :
    ∀ ns : List String,
      (ns.flatMap (fun n => (p :: t).filter (fun q => prodKey q == n))).length
        = ns.count (prodKey p)
          + (ns.flatMap (fun n => t.filter (fun q => prodKey q == n))).length := by
  intro ns
  induction ns with
  | nil => simp
  | cons m ms ih =>
    simp only [List.flatMap_cons, List.length_append]
    rw [ih, List.filter_cons, List.count_cons]
    by_cases hm : prodKey p = m
    · have h1 : (prodKey p == m) = true := beq_iff_eq.mpr hm
      have h2 : (m == prodKey p) = true := beq_iff_eq.mpr hm.symm
      simp only [h1, h2, if_true, List.length_cons]
      omega
    · have h1 : (prodKey p == m) = false := beq_eq_false_iff_ne.mpr hm
      have h2 : (m == prodKey p) = false := beq_eq_false_iff_ne.mpr (Ne.symm hm)
      simp only [h1, h2, Bool.false_eq_true, if_false]
      omega

theorem bucket_length (l : List Product) :
    ∀ ns : List String, ns.Nodup → (∀ p ∈ l, prodKey p ∈ ns) →
      (ns.flatMap (fun n => l.filter (fun q => prodKey q == n))).length = l.length := by
  induction l with
  | nil =>
    intro ns _ _
    simp [flatMap_nil_fun]
  | cons p t ih =>
    intro ns hnd hcov
    rw [bucket_length_cons, ih ns hnd (fun q hq => hcov q (List.mem_cons_of_mem p hq)),
      List.count_eq_one_of_mem hnd (hcov p (List.mem_cons_self p t))]
    rw [List.length_cons]
    omega

theorem bucket_count (l : List Product) (p : Product) :
    ∀ ns : List String,
      List.count p (ns.flatMap (fun n => l.filter (fun q => prodKey q == n)))
        = ns.count (prodKey p) * List.count p l := by
  intro ns
  induction ns with
  | nil => simp
  | cons m ms ih =>
    simp only [List.flatMap_cons, List.count_append, ih, List.count_cons]
    by_cases hm : prodKey p = m
    · subst hm
      rw [@List.count_filter Product _ _ (fun q => prodKey q == prodKey p) p l (by simp)]
      simp only [beq_self_eq_true, if_true]
      ring
    · have h1 : List.count p (l.filter (fun q => prodKey q == m)) = 0 :=
        List.count_eq_zero.mpr (fun hmem => hm (mem_bucket hmem).2)
      have h2 : (m == prodKey p) = false := beq_eq_false_iff_ne.mpr (Ne.symm hm)
      rw [h1, h2]
      simp

/-! ### Structure of the ordered category-name list -/

theorem prodKey_ne_empty (p : Product) : prodKey p ≠ "" := by
  by_cases h : p.category_name = "" <;> simp [prodKey, h, uncategorizedLabel]

theorem mem_orderedCategoryNames_bucket {cats : List Category}
    {G : String → List Product} {n : String}
    (h : n ∈ orderedCategoryNames cats G) : G n ≠ [] := by
  simp only [orderedCategoryNames] at h
  split at h
  · next hcond =>
    rcases List.mem_append.mp h with h | h
    · have := (List.mem_filter.mp h).2
      simpa using this
    · have hn : n = uncategorizedLabel := by simpa using h
      subst hn
      have := (Bool.and_eq_true _ _ ▸ hcond).1
      simpa using this
  · have := (List.mem_filter.mp h).2
    simpa using this

theorem bucket_nonempty_mem_ordered {cats : List Category}
    {G : String → List Product} {n : String} (hG : G n ≠ [])
    (hn : n = uncategorizedLabel ∨ n ∈ (sortedCategories cats).map Category.name) :
    n ∈ orderedCategoryNames cats G := by
  have hGe : (G n).isEmpty = false := List.isEmpty_eq_false.mpr hG
  rcases hn with rfl | hn
  · simp only [orderedCategoryNames]
    by_cases hc : ((((sortedCategories cats).map Category.name).filter
        (fun m => !(G m).isEmpty)).contains uncategorizedLabel) = true
    · have hmem := List.elem_iff.mp hc
      split
      · exact List.mem_append_left _ hmem
      · exact hmem
    · have hcc := Bool.eq_false_iff.mpr hc
      rw [if_pos (by rw [hGe, hcc]; rfl)]
      exact List.mem_append_right _ (List.mem_singleton.mpr rfl)
  · have hbase : n ∈ ((sortedCategories cats).map Category.name).filter
        (fun m => !(G m).isEmpty) :=
      List.mem_filter.mpr ⟨hn, by rw [hGe]; rfl⟩
    simp only [orderedCategoryNames]
    split
    · exact List.mem_append_left _ hbase
    · exact hbase

theorem orderedCategoryNames_nodup {cats : List Category} {G : String → List Product}
    (hnames : (cats.map Category.name).Nodup) :
    (orderedCategoryNames cats G).Nodup := by
  have hperm : List.Perm ((sortedCategories cats).map Category.name)
      (cats.map Category.name) :=
    (List.perm_insertionSort catRel cats).map Category.name
  have hbase : (((sortedCategories cats).map Category.name).filter
      (fun m => !(G m).isEmpty)).Nodup :=
    (hperm.nodup_iff.mpr hnames).filter _
  simp only [orderedCategoryNames]
  split
  · next hcond =>
    have hnotmem : uncategorizedLabel ∉
        ((sortedCategories cats).map Category.name).filter (fun m => !(G m).isEmpty) := by
      intro hmem
      have h2 := (Bool.and_eq_true _ _ ▸ hcond).2
      have hconteq : ((((sortedCategories cats).map Category.name).filter
          (fun n => !(G n).isEmpty)).contains uncategorizedLabel) = true :=
        List.elem_iff.mpr hmem
      rw [hconteq] at h2
      simp at h2
    exact List.Nodup.append hbase (List.nodup_singleton _)
      (fun a ha hb => by rw [List.mem_singleton.mp hb] at ha; exact hnotmem ha)
  · exact hbase

theorem headerNamesOf_append (a b : List ViewRow) :
    headerNamesOf (a ++ b) = headerNamesOf a ++ headerNamesOf b :=
  List.filterMap_append a b _

theorem headerNamesOf_blocks (ns : List String) (G : String → List Product) :
    headerNamesOf (ns.flatMap (fun n => ViewRow.header n :: (G n).map ViewRow.productRow))
      = ns := by
  induction ns with
  | nil => rfl
  | cons n t ih =>
    simp only [List.flatMap_cons]
    rw [headerNamesOf_append, headerNamesOf_block, ih]
    rfl

theorem productRowsOf_blocks (ns : List String) (G : String → List Product) :
    productRowsOf (ns.flatMap (fun n => ViewRow.header n :: (G n).map ViewRow.productRow))
      = ns.flatMap G := by
  induction ns with
  | nil => rfl
  | cons n t ih =>
    simp only [List.flatMap_cons]
    rw [productRowsOf_append, productRowsOf_block, ih]

theorem flattenedData_blocks (products : List Product) (cats : List Category)
    (q selCat : String) (sh : Bool)
    (hnames : (cats.map Category.name).Nodup) :
    flattenedData products cats q selCat sh =
      (orderedCategoryNames cats (buildGroups ((List.insertionSort prodRel products).filter
          (passesFilter q selCat sh)))).flatMap
        (fun n => ViewRow.header n ::
          ((buildGroups ((List.insertionSort prodRel products).filter
            (passesFilter q selCat sh))) n).map ViewRow.productRow) := by
  unfold flattenedData
  rw [groupedData_def]
  apply flattenRows_flatMap
  · intro n hn
    refine ⟨mem_orderedCategoryNames_bucket hn, ?_⟩
    intro p hp
    rw [buildGroups_apply] at hp
    exact (mem_bucket hp).2
  · exact orderedCategoryNames_nodup hnames
  · intro hmem
    have hne := mem_orderedCategoryNames_bucket hmem
    obtain ⟨p, hp⟩ := List.exists_mem_of_ne_nil _ hne
    rw [buildGroups_apply] at hp
    exact prodKey_ne_empty p (mem_bucket hp).2

theorem orderedCategoryNames_covers (products : List Product) (cats : List Category)
    (q selCat : String) (sh : Bool)
    (hresolve : ∀ p ∈ products, p.category_name = "" ∨
      p.category_name ∈ cats.map Category.name) :
    ∀ p ∈ (List.insertionSort prodRel products).filter (passesFilter q selCat sh),
      prodKey p ∈ orderedCategoryNames cats
        (buildGroups ((List.insertionSort prodRel products).filter
          (passesFilter q selCat sh))) := by
  intro p hp
  have hpprod : p ∈ products :=
    (List.mem_insertionSort prodRel).mp (List.mem_filter.mp hp).1
  have hbucket : buildGroups ((List.insertionSort prodRel products).filter
      (passesFilter q selCat sh)) (prodKey p) ≠ [] := by
    rw [buildGroups_apply]
    exact List.ne_nil_of_mem (List.mem_filter.mpr ⟨hp, beq_iff_eq.mpr rfl⟩)
  apply bucket_nonempty_mem_ordered hbucket
  by_cases hempty : p.category_name = ""
  · left
    simp [prodKey, hempty]
  · right
    have hkey : prodKey p = p.category_name := if_neg hempty
    rcases hresolve p hpprod with h | h
    · exact absurd h hempty
    · rw [hkey]
      have hperm : List.Perm ((sortedCategories cats).map Category.name)
          (cats.map Category.name) :=
        (List.perm_insertionSort catRel cats).map Category.name
      exact hperm.mem_iff.mpr h

/-! ### Evaluation of the price calculator -/

theorem jsOr_fin_zero (x : ℚ) : jsOr (.fin x) (.fin 0) = .fin x := by
  by_cases h : x = 0 <;> simp [jsOr, jsTruthy, h]

theorem costUsd_eval (c k : ℚ) :
    jsOr (jsOr (.fin c) (.fin k)) (.fin 0) = .fin (effectiveCostSpec c k) := by
  by_cases hc : c = 0 <;> by_cases hk : k = 0 <;>
    simp [jsOr, jsTruthy, effectiveCostSpec, hc, hk]

theorem calculateSYP_fin (c k p r : ℚ) :
    calculateSYP (.fin c) (.fin k) (.fin p) (.fin r)
      = .fin (((⌊(effectiveCostSpec c k * r + p) / 500 + 1/2⌋ : ℤ) : ℚ) * 500) := by
  simp only [calculateSYP, costUsd_eval, jsOr_fin_zero, jsMul, jsAdd]
  rw [show jsDiv (JSNum.fin (effectiveCostSpec c k * r + p)) (JSNum.fin 500)
      = JSNum.fin ((effectiveCostSpec c k * r + p) / 500) by
    simp only [jsDiv]
    rw [if_neg (by norm_num : ¬(500 : ℚ) = 0)]]
  simp only [jsRound, jsMul, jsIsNaN]
  rfl

theorem calculateSYP_ne_nan (a b c d : JSNum) : calculateSYP a b c d ≠ .nan := by
  simp only [calculateSYP]
  split
  · simp
  · next h =>
    intro heq
    rw [heq] at h
    exact h rfl

/-! ### Membership facts for hidden products -/

theorem exportRows_def (products : List Product) (cats : List Category) (sh : Bool) :
    exportRows products cats sh = (sortedCategories cats).flatMap (fun cat =>
      if (products.filter
          (fun p => (p.category_id == cat.id) && (sh || (p.is_hidden == 0)))).isEmpty
      then []
      else .header cat.name :: (List.insertionSort nameRel (products.filter
        (fun p => (p.category_id == cat.id) && (sh || (p.is_hidden == 0))))).map
          ViewRow.productRow) :=
  rfl

theorem mem_groupedData_passes {products : List Product} {cats : List Category}
    {q selCat : String} {sh : Bool} {p : Product}
    (h : p ∈ (groupedData products cats q selCat sh).2) :
    passesFilter q selCat sh p = true := by
  rw [groupedData_def] at h
  obtain ⟨n, _, hp⟩ := List.mem_flatMap.mp h
  rw [buildGroups_apply] at hp
  exact (List.mem_filter.mp (mem_bucket hp).1).2

theorem mem_exportRows_visible {products : List Product} {cats : List Category}
    {sh : Bool} {p : Product}
    (h : ViewRow.productRow p ∈ exportRows products cats sh) :
    (sh || (p.is_hidden == 0)) = true := by
  rw [exportRows_def] at h
  obtain ⟨c, _, hp⟩ := List.mem_flatMap.mp h
  split at hp
  · exact absurd hp (List.not_mem_nil _)
  · rcases List.mem_cons.mp hp with hp | hp
    · exact absurd hp (by simp)
    · obtain ⟨p', hp', hpeq⟩ := List.mem_map.mp hp
      obtain rfl : p = p' := by injection hpeq.symm
      have hmem : p ∈ products.filter
          (fun x => (x.category_id == c.id) && (sh || (x.is_hidden == 0))) :=
        (List.mem_insertionSort nameRel).mp hp'
      exact (Bool.and_eq_true _ _ ▸ (List.mem_filter.mp hmem).2).2

/-! ### Geometry of the PDF export tiling -/

theorem handleExportPDF_length (W H Wp Hp : ℚ) (hH : 0 < H) (hW : 0 < W)
    (hWp : 0 < Wp) (hHp : 0 < Hp) :
    ((handleExportPDF W H Wp Hp).length : ℤ) = ⌈H / ((Hp * W) / Wp)⌉ := by
  have hphp : 0 < (Hp * W) / Wp := by positivity
  have hceil : 0 < ⌈H / ((Hp * W) / Wp)⌉ := Int.ceil_pos.mpr (by positivity)
  simp only [handleExportPDF, List.length_map, List.length_range]
  exact Int.toNat_of_nonneg (le_of_lt hceil)

theorem handleExportPDF_position (W H Wp Hp : ℚ) (i : ℕ)
    (hi : i < (handleExportPDF W H Wp Hp).length) :
    ((handleExportPDF W H Wp Hp).get ⟨i, hi⟩).position = -(Hp * i) := by
  simp only [handleExportPDF] at hi ⊢
  simp [List.get_eq_getElem, List.getElem_map, List.getElem_range]

theorem pdf_window_cover (W H Wp Hp : ℚ) (hW : 0 < W) (hH : 0 < H)
    (hWp : 0 < Wp) (hHp : 0 < Hp) (x : ℚ) (hx0 : 0 ≤ x) (hxH : x < H) :
    ∃! i : ℕ, i < (handleExportPDF W H Wp Hp).length ∧
      pageWindowLower W Wp Hp i ≤ x ∧ x < pageWindowUpper W Wp Hp i := by
  have hphp : 0 < pageHeightPx W Wp Hp := by unfold pageHeightPx; positivity
  have hfl0 : 0 ≤ ⌊x / pageHeightPx W Wp Hp⌋ :=
    Int.floor_nonneg.mpr (le_div_iff₀ hphp |>.mpr (by simpa using hx0))
  have hlen : ((handleExportPDF W H Wp Hp).length : ℤ) = ⌈H / ((Hp * W) / Wp)⌉ :=
    handleExportPDF_length W H Wp Hp hH hW hWp hHp
  have hphp_eq : pageHeightPx W Wp Hp = (Hp * W) / Wp := rfl
  have hcast : ((⌊x / pageHeightPx W Wp Hp⌋.toNat : ℕ) : ℚ)
      = ((⌊x / pageHeightPx W Wp Hp⌋ : ℤ) : ℚ) := by
    exact_mod_cast congrArg (fun z : ℤ => (z : ℚ)) (Int.toNat_of_nonneg hfl0)
  have hlt : ⌊x / pageHeightPx W Wp Hp⌋ < ⌈H / ((Hp * W) / Wp)⌉ := by
    have h1 : ((⌊x / pageHeightPx W Wp Hp⌋ : ℤ) : ℚ) ≤ x / pageHeightPx W Wp Hp :=
      Int.floor_le _
    have h2 : x / pageHeightPx W Wp Hp < H / pageHeightPx W Wp Hp :=
      (div_lt_div_iff_of_pos_right hphp).mpr hxH
    have h3 : H / ((Hp * W) / Wp) ≤ ((⌈H / ((Hp * W) / Wp)⌉ : ℤ) : ℚ) := Int.le_ceil _
    rw [hphp_eq] at h1 h2
    exact_mod_cast lt_of_le_of_lt h1 (lt_of_lt_of_le h2 h3)
  refine ⟨⌊x / pageHeightPx W Wp Hp⌋.toNat, ⟨?_, ?_, ?_⟩, ?_⟩
  · omega
  · unfold pageWindowLower
    rw [hcast]
    exact (le_div_iff₀ hphp).mp (Int.floor_le _)
  · unfold pageWindowUpper
    rw [hcast]
    exact (div_lt_iff₀ hphp).mp (Int.lt_floor_add_one _)
  · intro j ⟨hjlen, hjlo, hjhi⟩
    unfold pageWindowLower at hjlo
    unfold pageWindowUpper at hjhi
    have hj1 : ((j : ℤ) : ℚ) ≤ x / pageHeightPx W Wp Hp := by
      rw [le_div_iff₀ hphp]
      exact_mod_cast hjlo
    have hj2 : x / pageHeightPx W Wp Hp < ((j : ℤ) : ℚ) + 1 := by
      rw [div_lt_iff₀ hphp]
      push_cast
      linarith
    have hjf : ⌊x / pageHeightPx W Wp Hp⌋ = (j : ℤ) :=
      Int.floor_eq_iff.mpr ⟨hj1, hj2⟩
    omega

/-! ### Claim theorems -/

/-- C1: the code violates the claim.  First conjunct — the hide action's
body `{"is_hidden": 1}` on a row whose `carton_usd` is 22.56 leaves the
seven other destructured fields `undefined`; better-sqlite3 refuses
`undefined` bind parameters, so `.run(...)` throws, the route responds 500
and the row is not patched at all: no successful partial update exists and
`is_hidden` is not even set, contradicting "updateProduct(id,
partialFields) -> success" with patch semantics.  Second conjunct — the
update machinery itself is live: a body carrying every field with a
concrete value succeeds and writes the values (with `carton_usd` synced to
`cost_usd`).  Third conjunct — even when the unnamed fields are padded
with explicit JSON `null`s so that every parameter binds, the UPDATE
succeeds, every other unnamed column keeps its prior value via
`COALESCE(?, column)`, but the `carton_usd` column's `COALESCE(?, ?)` of
two request parameters sets `carton_usd` to SQL `NULL` instead of keeping
22.56. -/
theorem c1_partial_update_not_applied :
    updateProduct ⟨none, none, none, none, none, none, none, some (some 1)⟩
      ⟨some "p", some 0, some 500, some 250, some (2256/100), some 0, some 1, some 0⟩
      = Except.error
        "TypeError: SQLite3 can only bind numbers, strings, bigints, buffers, and null" ∧
    updateProduct ⟨some (some "p2"), some (some 3), some (some 600), some (some 250),
        some (some 3), some (some 0), some (some 1), some (some 1)⟩
      ⟨some "p", some 0, some 500, some 250, some (2256/100), some 0, some 1, some 0⟩
      = Except.ok ⟨some "p2", some 3, some 600, some 250, some 3, some 0, some 1, some 1⟩ ∧
    updateProduct ⟨some none, some none, some none, some none, some none, some none,
        some none, some (some 1)⟩
      ⟨some "p", some 0, some 500, some 250, some (2256/100), some 0, some 1, some 0⟩
      = Except.ok ⟨some "p", some 0, some 500, some 250, none, some 0, some 1, some 1⟩ :=
  ⟨rfl, rfl, rfl⟩

/-- C3 counterexample: in the spec's scenario 2 (cost 0, legacy carton cost
22.56, profit 500, rate 11700) the code does not return 265,000: the true
base is 22.56 × 11700 + 500 = 264,452 (the spec miscomputes 22.56 × 11700
as 264,492), which rounds to 264,500. -/
theorem c3_scenario2_cex :
    calculateSYP (.fin 0) (.fin (2256/100)) (.fin 500) (.fin 11700) ≠ .fin 265000 := by
  rw [calculateSYP_fin]
  have h : (⌊(effectiveCostSpec 0 (2256/100) * 11700 + 500) / 500 + 1/2⌋ : ℤ) = 529 := by
    norm_num [effectiveCostSpec]
  rw [h]
  simp only [ne_eq, JSNum.fin.injEq]
  norm_num

/-- C3 amended: with cost_usd = 0, legacy carton cost 22.56, profit 500 and
rate 11700, the effective cost resolves to 22.56 and the final price is
264,500 (base 263,952 + 500 = 264,452, rounded to the nearest 500). -/
theorem c3_scenario2_eval :
    effectiveCostSpec 0 (2256/100) = 2256/100 ∧
    calculateSYP (.fin 0) (.fin (2256/100)) (.fin 500) (.fin 11700) = .fin 264500 := by
  constructor
  · norm_num [effectiveCostSpec]
  · rw [calculateSYP_fin]
    have h : (⌊(effectiveCostSpec 0 (2256/100) * 11700 + 500) / 500 + 1/2⌋ : ℤ) = 529 := by
      norm_num [effectiveCostSpec]
    rw [h]
    simp only [JSNum.fin.injEq]
    norm_num

/-- C4 counterexample: an infinite rate with nonzero cost propagates to an
infinite result (the `isNaN` guard does not force 0), and a negative profit
yields a negative result, refuting "any non-finite intermediate forces a 0
result" and "the result is non-negative". -/
theorem c4_nonfinite_cex :
    calculateSYP (.fin 1) (.fin 0) (.fin 500) .posInf = .posInf ∧
    calculateSYP (.fin 0) (.fin 0) (.fin (-1000)) (.fin 1) = .fin (-1000) := by
  constructor
  · norm_num [calculateSYP, jsOr, jsTruthy, jsMul, jsAdd, jsDiv, jsRound, jsIsNaN]
  · rw [calculateSYP_fin]
    have h : (⌊(effectiveCostSpec 0 0 * 1 + (-1000)) / 500 + 1/2⌋ : ℤ) = -2 := by
      norm_num [effectiveCostSpec]
    rw [h]
    simp only [JSNum.fin.injEq]
    norm_num

/-- C4 amended: `calculateSYP` never returns `NaN` (a `NaN` result is mapped
to 0 by the final guard); for finite cost, carton, profit and rate the result
is finite; and when those finite inputs are in addition non-negative the
result is non-negative.  An infinite input may still produce an infinite
result, and negative inputs a negative one (see the counterexample). -/
theorem c4_calculateSYP_nan_guard :
    (∀ a b c d : JSNum, calculateSYP a b c d ≠ .nan) ∧
    (∀ c k p r : ℚ, ∃ v : ℚ, calculateSYP (.fin c) (.fin k) (.fin p) (.fin r) = .fin v) ∧
    (∀ c k p r : ℚ, 0 ≤ c → 0 ≤ k → 0 ≤ p → 0 ≤ r →
      ∃ v : ℚ, calculateSYP (.fin c) (.fin k) (.fin p) (.fin r) = .fin v ∧ 0 ≤ v) := by
  refine ⟨calculateSYP_ne_nan, fun c k p r => ⟨_, calculateSYP_fin c k p r⟩, ?_⟩
  intro c k p r hc hk hp hr
  refine ⟨_, calculateSYP_fin c k p r, ?_⟩
  have heff : 0 ≤ effectiveCostSpec c k := by
    unfold effectiveCostSpec
    split_ifs <;> first | assumption | norm_num
  have hbase : 0 ≤ effectiveCostSpec c k * r + p :=
    add_nonneg (mul_nonneg heff hr) hp
  have hfloor : 0 ≤ ⌊(effectiveCostSpec c k * r + p) / 500 + 1/2⌋ :=
    Int.floor_nonneg.mpr
      (add_nonneg (div_nonneg hbase (by norm_num)) (by norm_num))
  have hq : (0 : ℚ) ≤ ((⌊(effectiveCostSpec c k * r + p) / 500 + 1/2⌋ : ℤ) : ℚ) := by
    exact_mod_cast hfloor
  exact mul_nonneg hq (by norm_num)

/-- C4 witness. -/
theorem c4_calculateSYP_nan_guard_witness :
    ∃ v : ℚ, calculateSYP (.fin 1) (.fin 0) (.fin 500) (.fin 11700) = .fin v ∧ 0 ≤ v :=
  c4_calculateSYP_nan_guard.2.2 1 0 500 11700 (by norm_num) (by norm_num)
    (by norm_num) (by norm_num)

/-- C5 counterexample: with cost 0, carton 0, profit −250 and rate 0 (≥ 0),
the code returns 0 (JS `Math.round` rounds −0.5 toward +∞), while the
claimed round-half-away-from-zero rule prescribes −500. -/
theorem c5_rounding_cex :
    calculateSYP (.fin 0) (.fin 0) (.fin (-250)) (.fin 0) = .fin 0 ∧
    calculateSYPSpec 0 0 (-250) 0 = -500 ∧
    calculateSYP (.fin 0) (.fin 0) (.fin (-250)) (.fin 0)
      ≠ .fin (calculateSYPSpec 0 0 (-250) 0) := by
  have h1 : calculateSYP (.fin 0) (.fin 0) (.fin (-250)) (.fin 0) = .fin 0 := by
    rw [calculateSYP_fin]
    have h : (⌊(effectiveCostSpec 0 0 * 0 + (-250)) / 500 + 1/2⌋ : ℤ) = 0 := by
      norm_num [effectiveCostSpec]
    rw [h]
    simp only [JSNum.fin.injEq]
    norm_num
  have h2 : calculateSYPSpec 0 0 (-250) 0 = -500 := by
    norm_num [calculateSYPSpec, roundHalfAwayFromZero, effectiveCostSpec]
  refine ⟨h1, h2, ?_⟩
  rw [h1, h2]
  simp only [ne_eq, JSNum.fin.injEq]
  norm_num

/-- C5 amended: for every product (rational fields) and every rate r ≥ 0, the
final price is the base value rounded with `⌊base/500 + 1/2⌋ · 500` — round
half toward **positive infinity**, not half away from zero — and is in
particular always a multiple of 500. -/
theorem c5_round_half_up (c k p r : ℚ) (_hr : 0 ≤ r) :
    calculateSYP (.fin c) (.fin k) (.fin p) (.fin r)
      = .fin (((⌊(effectiveCostSpec c k * r + p) / 500 + 1/2⌋ : ℤ) : ℚ) * 500) ∧
    ∃ m : ℤ, calculateSYP (.fin c) (.fin k) (.fin p) (.fin r) = .fin (500 * (m : ℚ)) := by
  refine ⟨calculateSYP_fin c k p r, ⟨⌊(effectiveCostSpec c k * r + p) / 500 + 1/2⌋, ?_⟩⟩
  rw [calculateSYP_fin]
  simp only [JSNum.fin.injEq]
  ring

/-- C5 witness. -/
theorem c5_round_half_up_witness :
    calculateSYP (.fin 1) (.fin 0) (.fin 500) (.fin 11700)
      = .fin (((⌊(effectiveCostSpec 1 0 * 11700 + 500) / 500 + 1/2⌋ : ℤ) : ℚ) * 500) ∧
    ∃ m : ℤ, calculateSYP (.fin 1) (.fin 0) (.fin 500) (.fin 11700) = .fin (500 * (m : ℚ)) :=
  c5_round_half_up 1 0 500 11700 (by norm_num)

/-- C2 counterexample: the export table ignores the search text and is built
from `category_id` rather than `category_name`.  With one visible product and
a search text matching nothing, the pipeline yields no rows while the export
still renders the product; and with an empty search but a product whose
`category_name` does not match its `category_id`'s category, the pipeline
drops the product while the export keeps it. -/
theorem c2_export_vs_pipeline_cex :
    productRowsOf (exportRows [⟨1, 1, "A", 0, "p", 1, 500, 250, 1, 0, 0⟩]
        [⟨1, "A", 0⟩] false)
      ≠ (groupedData [⟨1, 1, "A", 0, "p", 1, 500, 250, 1, 0, 0⟩] [⟨1, "A", 0⟩]
        "zzz" "all" false).2 ∧
    productRowsOf (exportRows [⟨2, 1, "B", 0, "q", 1, 500, 250, 1, 0, 0⟩]
        [⟨1, "A", 0⟩] false)
      ≠ (groupedData [⟨2, 1, "B", 0, "q", 1, 500, 250, 1, 0, 0⟩] [⟨1, "A", 0⟩]
        "" "all" false).2 := by
  constructor
  · have h1 : productRowsOf (exportRows [⟨1, 1, "A", 0, "p", 1, 500, 250, 1, 0, 0⟩]
        [⟨1, "A", 0⟩] false) = [⟨1, 1, "A", 0, "p", 1, 500, 250, 1, 0, 0⟩] := rfl
    have h2 : (groupedData [⟨1, 1, "A", 0, "p", 1, 500, 250, 1, 0, 0⟩] [⟨1, "A", 0⟩]
        "zzz" "all" false).2 = [] := rfl
    rw [h1, h2]
    simp
  · have h1 : productRowsOf (exportRows [⟨2, 1, "B", 0, "q", 1, 500, 250, 1, 0, 0⟩]
        [⟨1, "A", 0⟩] false) = [⟨2, 1, "B", 0, "q", 1, 500, 250, 1, 0, 0⟩] := rfl
    have h2 : (groupedData [⟨2, 1, "B", 0, "q", 1, 500, 250, 1, 0, 0⟩] [⟨1, "A", 0⟩]
        "" "all" false).2 = [] := rfl
    rw [h1, h2]
    simp

/-- C2 amended: when the search text is empty and the category filter is
"all", and the product records are consistent with the category list
(unique category names and ids, nonempty names, every product joined to its
category), the sequence of product rows in the export table equals the
product sequence produced by the grouping/filtering pipeline. -/
theorem c2_export_matches_pipeline (products : List Product) (cats : List Category)
    (sh : Bool)
    (hnames : (cats.map Category.name).Nodup)
    (hids : (cats.map Category.id).Nodup)
    (hne : ∀ c ∈ cats, c.name ≠ "")
    (hcons : ∀ p ∈ products, ∃ c ∈ cats, p.category_id = c.id ∧
      p.category_name = c.name ∧ p.category_sort_order = c.sort_order) :
    productRowsOf (exportRows products cats sh)
      = (groupedData products cats "" "all" sh).2 := by
  rw [exportRows_productRows, groupedData_canonical products cats sh hnames hids hne hcons]

/-- C2 witness. -/
theorem c2_export_matches_pipeline_witness :
    productRowsOf (exportRows [⟨1, 1, "A", 0, "p", 1, 500, 250, 1, 0, 0⟩]
        [⟨1, "A", 0⟩] false)
      = (groupedData [⟨1, 1, "A", 0, "p", 1, 500, 250, 1, 0, 0⟩] [⟨1, "A", 0⟩]
        "" "all" false).2 :=
  c2_export_matches_pipeline [⟨1, 1, "A", 0, "p", 1, 500, 250, 1, 0, 0⟩]
    [⟨1, "A", 0⟩] false (by decide) (by decide) (by decide) (by decide)

/-- C6 counterexample: (i) a product whose nonempty `category_name` matches
no category is silently dropped, so the number of product rows (0) differs
from the number of products passing the filter (1); (ii) a duplicated
product entry appears twice in the flattened rows; (iii) two categories
sharing a name make each of their (name-keyed) buckets appear once per
category, duplicating the product. -/
theorem c6_invariants_cex :
    (productRowsOf (flattenedData [⟨1, 5, "X", 0, "r", 1, 500, 250, 1, 0, 0⟩]
        [] "" "all" true)).length
      ≠ List.countP (passesFilter "" "all" true)
        [⟨1, 5, "X", 0, "r", 1, 500, 250, 1, 0, 0⟩] ∧
    ¬ (productRowsOf (flattenedData [⟨1, 1, "A", 0, "p", 1, 500, 250, 1, 0, 0⟩,
        ⟨1, 1, "A", 0, "p", 1, 500, 250, 1, 0, 0⟩] [⟨1, "A", 0⟩] "" "all" true)).Nodup ∧
    ¬ (productRowsOf (flattenedData [⟨1, 1, "A", 0, "p", 1, 500, 250, 1, 0, 0⟩]
        [⟨1, "A", 0⟩, ⟨2, "A", 1⟩] "" "all" true)).Nodup := by
  refine ⟨by decide, ?_, ?_⟩
  · have h : productRowsOf (flattenedData [⟨1, 1, "A", 0, "p", 1, 500, 250, 1, 0, 0⟩,
        ⟨1, 1, "A", 0, "p", 1, 500, 250, 1, 0, 0⟩] [⟨1, "A", 0⟩] "" "all" true)
          = [⟨1, 1, "A", 0, "p", 1, 500, 250, 1, 0, 0⟩,
             ⟨1, 1, "A", 0, "p", 1, 500, 250, 1, 0, 0⟩] := rfl
    rw [h]
    intro hnd
    exact (List.nodup_cons.mp hnd).1 (List.mem_cons_self _ _)
  · have h : productRowsOf (flattenedData [⟨1, 1, "A", 0, "p", 1, 500, 250, 1, 0, 0⟩]
        [⟨1, "A", 0⟩, ⟨2, "A", 1⟩] "" "all" true)
          = [⟨1, 1, "A", 0, "p", 1, 500, 250, 1, 0, 0⟩,
             ⟨1, 1, "A", 0, "p", 1, 500, 250, 1, 0, 0⟩] := rfl
    rw [h]
    intro hnd
    exact (List.nodup_cons.mp hnd).1 (List.mem_cons_self _ _)

/-- C6 amended: for product lists without duplicate entries, category lists
with pairwise-distinct names, and products whose (nonempty) category names
all resolve to a listed category, the flattened view-row sequence is a
deterministic function of the inputs, contains no category header twice,
contains no product more than once, and its number of product rows equals
the number of products passing the filter step. -/
theorem c6_pipeline_invariants (products : List Product) (cats : List Category)
    (q selCat : String) (sh : Bool)
    (hprod : products.Nodup)
    (hnames : (cats.map Category.name).Nodup)
    (hresolve : ∀ p ∈ products, p.category_name = "" ∨
      p.category_name ∈ cats.map Category.name) :
    (flattenedData products cats q selCat sh = flattenedData products cats q selCat sh) ∧
    (headerNamesOf (flattenedData products cats q selCat sh)).Nodup ∧
    (∀ p : Product,
      List.count p (productRowsOf (flattenedData products cats q selCat sh)) ≤ 1) ∧
    (productRowsOf (flattenedData products cats q selCat sh)).length
      = List.countP (passesFilter q selCat sh) products := by
  have hblocks := flattenedData_blocks products cats q selCat sh hnames
  have hgfun : buildGroups ((List.insertionSort prodRel products).filter
      (passesFilter q selCat sh)) = fun k =>
        ((List.insertionSort prodRel products).filter
          (passesFilter q selCat sh)).filter (fun x => prodKey x == k) :=
    funext (buildGroups_apply _)
  refine ⟨rfl, ?_, ?_, ?_⟩
  · rw [hblocks, headerNamesOf_blocks]
    exact orderedCategoryNames_nodup hnames
  · intro p
    rw [hblocks, productRowsOf_blocks, hgfun, bucket_count]
    have h1 : (orderedCategoryNames cats (fun k =>
        ((List.insertionSort prodRel products).filter
          (passesFilter q selCat sh)).filter (fun x => prodKey x == k))).count (prodKey p)
        ≤ 1 :=
      List.nodup_iff_count_le_one.mp (orderedCategoryNames_nodup hnames) _
    have h2 : List.count p ((List.insertionSort prodRel products).filter
        (passesFilter q selCat sh)) ≤ 1 := by
      calc List.count p ((List.insertionSort prodRel products).filter
            (passesFilter q selCat sh))
          ≤ List.count p (List.insertionSort prodRel products) :=
            (List.filter_sublist _).count_le p
        _ = List.count p products :=
            (List.perm_insertionSort prodRel products).count_eq p
        _ ≤ 1 := List.nodup_iff_count_le_one.mp hprod p
    calc (orderedCategoryNames cats _).count (prodKey p)
          * List.count p ((List.insertionSort prodRel products).filter
            (passesFilter q selCat sh))
        ≤ 1 * 1 := Nat.mul_le_mul h1 h2
      _ = 1 := by norm_num
  · have hcov : ∀ p ∈ (List.insertionSort prodRel products).filter
        (passesFilter q selCat sh),
        prodKey p ∈ orderedCategoryNames cats (fun k =>
          ((List.insertionSort prodRel products).filter
            (passesFilter q selCat sh)).filter (fun x => prodKey x == k)) := by
      rw [← hgfun]
      exact orderedCategoryNames_covers products cats q selCat sh hresolve
    rw [hblocks, productRowsOf_blocks, hgfun,
      bucket_length _ _ (orderedCategoryNames_nodup hnames) hcov]
    exact (List.countP_eq_length_filter _ _).symm.trans
      ((List.perm_insertionSort prodRel products).countP_eq _)

/-- C6 witness. -/
theorem c6_pipeline_invariants_witness :
    (flattenedData [⟨1, 1, "A", 0, "p", 1, 500, 250, 1, 0, 0⟩] [⟨1, "A", 0⟩]
        "" "all" false
      = flattenedData [⟨1, 1, "A", 0, "p", 1, 500, 250, 1, 0, 0⟩] [⟨1, "A", 0⟩]
        "" "all" false) ∧
    (headerNamesOf (flattenedData [⟨1, 1, "A", 0, "p", 1, 500, 250, 1, 0, 0⟩]
        [⟨1, "A", 0⟩] "" "all" false)).Nodup ∧
    (∀ p : Product,
      List.count p (productRowsOf (flattenedData
        [⟨1, 1, "A", 0, "p", 1, 500, 250, 1, 0, 0⟩] [⟨1, "A", 0⟩] "" "all" false)) ≤ 1) ∧
    (productRowsOf (flattenedData [⟨1, 1, "A", 0, "p", 1, 500, 250, 1, 0, 0⟩]
        [⟨1, "A", 0⟩] "" "all" false)).length
      = List.countP (passesFilter "" "all" false)
        [⟨1, 1, "A", 0, "p", 1, 500, 250, 1, 0, 0⟩] :=
  c6_pipeline_invariants [⟨1, 1, "A", 0, "p", 1, 500, 250, 1, 0, 0⟩] [⟨1, "A", 0⟩]
    "" "all" false (by decide) (by decide) (by decide)

/-- C7: for positive image dimensions and page dimensions, the PDF export
produces exactly `⌈H / (Hp·W/Wp)⌉` pages, places the image on page `i` at
vertical offset `-(Hp·i)`, and the per-page source windows tile `[0, H)`
with no gaps and no overlap. -/
theorem c7_pdf_tiling (W H Wp Hp : ℚ) (hW : 0 < W) (hH : 0 < H)
    (hWp : 0 < Wp) (hHp : 0 < Hp) :
    ((handleExportPDF W H Wp Hp).length : ℤ) = ⌈H / (Hp * W / Wp)⌉ ∧
    (∀ (i : ℕ) (hi : i < (handleExportPDF W H Wp Hp).length),
      ((handleExportPDF W H Wp Hp).get ⟨i, hi⟩).position = -(Hp * i)) ∧
    (∀ x : ℚ, 0 ≤ x → x < H →
      ∃! i : ℕ, i < (handleExportPDF W H Wp Hp).length ∧
        pageWindowLower W Wp Hp i ≤ x ∧ x < pageWindowUpper W Wp Hp i) :=
  ⟨handleExportPDF_length W H Wp Hp hH hW hWp hHp,
   fun i hi => handleExportPDF_position W H Wp Hp i hi,
   fun x hx0 hxH => pdf_window_cover W H Wp Hp hW hH hWp hHp x hx0 hxH⟩

/-- C7 witness, at the page geometry hard-coded in the export handler. -/
theorem c7_pdf_tiling_witness :
    ((handleExportPDF 800 9000 pdfWidthMm pdfPageHeightMm).length : ℤ)
      = ⌈(9000 : ℚ) / (pdfPageHeightMm * 800 / pdfWidthMm)⌉ ∧
    (∀ (i : ℕ) (hi : i < (handleExportPDF 800 9000 pdfWidthMm pdfPageHeightMm).length),
      ((handleExportPDF 800 9000 pdfWidthMm pdfPageHeightMm).get ⟨i, hi⟩).position
        = -(pdfPageHeightMm * i)) ∧
    (∀ x : ℚ, 0 ≤ x → x < 9000 →
      ∃! i : ℕ, i < (handleExportPDF 800 9000 pdfWidthMm pdfPageHeightMm).length ∧
        pageWindowLower 800 pdfWidthMm pdfPageHeightMm i ≤ x ∧
        x < pageWindowUpper 800 pdfWidthMm pdfPageHeightMm i) :=
  c7_pdf_tiling 800 9000 pdfWidthMm pdfPageHeightMm (by norm_num)
    (by norm_num) (by norm_num [pdfWidthMm]) (by norm_num [pdfPageHeightMm])

/-- C8: a product whose hidden flag is set is excluded from both the live
flattened view and the export table when show-hidden is false, for every
search text and selected category. -/
theorem c8_hidden_excluded (products : List Product) (cats : List Category)
    (q selCat : String) (p : Product) (hp : p.is_hidden ≠ 0) :
    ViewRow.productRow p ∉ flattenedData products cats q selCat false ∧
    ViewRow.productRow p ∉ exportRows products cats false := by
  constructor
  · intro hmem
    unfold flattenedData at hmem
    have hmem2 : p ∈ (groupedData products cats q selCat false).2 :=
      productRow_mem_flattenRows _ _ hmem
    have hvis := passesFilter_visibility (mem_groupedData_passes hmem2)
    exact hp (by simpa using hvis)
  · intro hmem
    have hvis := mem_exportRows_visible hmem
    exact hp (by simpa using hvis)

/-- C8 witness. -/
theorem c8_hidden_excluded_witness :
    ViewRow.productRow ⟨1, 1, "A", 0, "p", 1, 500, 250, 1, 0, 1⟩
      ∉ flattenedData [⟨1, 1, "A", 0, "p", 1, 500, 250, 1, 0, 1⟩] [⟨1, "A", 0⟩]
        "" "all" false ∧
    ViewRow.productRow ⟨1, 1, "A", 0, "p", 1, 500, 250, 1, 0, 1⟩
      ∉ exportRows [⟨1, 1, "A", 0, "p", 1, 500, 250, 1, 0, 1⟩] [⟨1, "A", 0⟩] false :=
  c8_hidden_excluded [⟨1, 1, "A", 0, "p", 1, 500, 250, 1, 0, 1⟩] [⟨1, "A", 0⟩]
    "" "all" ⟨1, 1, "A", 0, "p", 1, 500, 250, 1, 0, 1⟩ (by decide)

/-- C9: a persisted visible-columns value that is the empty list or omits
the "name" column is replaced by the default visible subset, which contains
"name". -/
theorem c9_visibleColumns_fallback (l : List String) (h : l = [] ∨ "name" ∉ l) :
    loadVisibleColumns (some l) = DEFAULT_VISIBLE ∧
    "name" ∈ loadVisibleColumns (some l) := by
  have hfall : loadVisibleColumns (some l) = DEFAULT_VISIBLE := by
    simp only [loadVisibleColumns]
    rcases h with rfl | h
    · rfl
    · have hc : (l.contains "name") = false := by
        cases hc : l.contains "name"
        · rfl
        · exact absurd (List.elem_iff.mp hc) h
      have hcond : (decide (l.length = 0) || !(l.contains "name")) = true := by
        rw [hc]
        simp
      rw [if_pos hcond]
  refine ⟨hfall, ?_⟩
  rw [hfall]
  decide

/-- C9 witness. -/
theorem c9_visibleColumns_fallback_witness :
    loadVisibleColumns (some []) = DEFAULT_VISIBLE ∧
    "name" ∈ loadVisibleColumns (some []) :=
  c9_visibleColumns_fallback [] (Or.inl rfl)

theorem jsParseFloat_nonneg {cs : List Char} {v : ℚ}
    (h : jsParseFloat cs = some v) : 0 ≤ v := by
  simp only [jsParseFloat] at h
  split at h
  · exact absurd h (by simp)
  · have hv := Option.some.inj h
    rw [← hv]
    positivity

/-- C10: `parseNumber` on string input always returns a non-negative
rational (it never yields `NaN`: an unparseable cleaned string maps to 0);
the minus sign is stripped and commas become decimal points before parsing,
so "-3.5" parses as 3.5, the thousands-separated "1,234" parses as 1.234,
and the empty string parses as 0. -/
theorem c10_parseNumber_props :
    (∀ s : String, 0 ≤ parseNumber s) ∧
    parseNumber "-3.5" = 7/2 ∧
    parseNumber "1,234" = 617/500 ∧
    parseNumber "" = 0 := by
  refine ⟨?_, ?_, ?_, rfl⟩
  · intro s
    unfold parseNumber
    split
    · exact le_refl 0
    · cases hpf : jsParseFloat (cleanedChars s) with
      | none => simp [hpf]
      | some v => simp only [hpf]; exact jsParseFloat_nonneg hpf
  · have h : parseNumber "-3.5"
        = (((3 : ℕ) : ℚ) + ((5 : ℕ) : ℚ) / (10 : ℚ) ^ (1 : ℕ)) := rfl
    rw [h]
    norm_num
  · have h : parseNumber "1,234"
        = (((1 : ℕ) : ℚ) + ((234 : ℕ) : ℚ) / (10 : ℚ) ^ (3 : ℕ)) := rfl
    rw [h]
    norm_num
